import Mathlib

/-!
Verification of the aggregation engine of `randbats-winrates` (src/stats.rs).

Shallow embedding conventions:
* Rust `String` / `&str` values are Lean `String`s; where character-level
  manipulation is needed (prefix stripping, splitting, rendering) we work on
  `String.data`, i.e. on `List Char`.  All species strings carry their JSON
  double quotes, exactly as the byte slices returned by the JSON field
  extractor do in the source.
* `IndexMap<String, PokemonStats>` is an insertion-ordered association list
  `List (String × PokemonStats)`: `get_mut` updates a binding in place,
  `insert` of a fresh key appends at the end.
* Machine integers (`u32` counters, `u64` elo threshold) are `Nat`; the claims
  under check never exercise wrap-around.  The `f64 as u64` saturating cast of
  the rating is modelled exactly (negatives clamp to 0, truncation toward
  zero, saturation at `2^64 - 1`).
* `f32` statistics (`winrate`, `deviations`) are modelled by their exact
  real-number values; the comparison the sort performs on them is realised by
  an equivalent integer comparison (proved equivalent to the real one below).
* The external JSON library (`pikkr`) and `str::parse::<f64>` are collaborators
  outside this repository; `process_json` takes them as explicit function
  arguments (`parseSpecies`, `parseRating`).
-/

namespace RandbatsWinrates

/-- `PokemonStats` from src/stats.rs: games and wins counters (`u32`). -/
structure PokemonStats where
  games : Nat
  wins : Nat
deriving DecidableEq

/-- `GameResult` from src/stats.rs: a canonical species plus a win flag. -/
structure GameResult where
  species : String
  won : Bool
deriving DecidableEq

/-- `Stats` from src/stats.rs: the insertion-ordered species map plus the
`is_sorted` flag. -/
structure Stats where
  pokemon : List (String × PokemonStats)
  is_sorted : Bool
deriving DecidableEq

/-- `Stats::new`. -/
def Stats.new : Stats := ⟨[], false⟩

/-- Lookup in the insertion-ordered map (`IndexMap::get`/`get_mut`, read side). -/
def lookupStats : List (String × PokemonStats) → String → Option PokemonStats
  | [], _ => none
  | (k, v) :: rest, sp => if k = sp then some v else lookupStats rest sp

/-- `if result.won { 1 } else { 0 }`. -/
def winVal (won : Bool) : Nat := if won then 1 else 0

/-- One iteration of the loop body of `Stats::add_game_results`:
if the species is present, bump its counters in place (`get_mut` branch);
otherwise append a fresh `PokemonStats { games: 1, wins }` (`insert` branch,
which appends at the end of an `IndexMap`). -/
def addResult : List (String × PokemonStats) → String → Nat → List (String × PokemonStats)
  | [], sp, w => [(sp, ⟨1, w⟩)]
  | (k, v) :: rest, sp, w =>
    if k = sp then (k, ⟨v.games + 1, v.wins + w⟩) :: rest
    else (k, v) :: addResult rest sp w

/-- `Stats::add_game_results`: early return on an empty batch, otherwise clear
`is_sorted` and fold the loop body over the batch in order. -/
def Stats.add_game_results (st : Stats) (results : List GameResult) : Stats :=
  if results.isEmpty then st
  else
    { pokemon := results.foldl (fun m r => addResult m r.species (winVal r.won)) st.pokemon,
      is_sorted := false }

/-- `mergeAll` folds `add_game_results` over a sequence of batches starting
from the empty store; this is exactly what the worker pool in src/main.rs does
(each worker's result vector is merged, one at a time, into the shared store). -/
def mergeAll (batches : List (List GameResult)) : Stats :=
  batches.foldl Stats.add_game_results Stats.new

/-- A store is reachable when some finite sequence of merges produces it from
the empty store. -/
def Reachable (st : Stats) : Prop := ∃ batches, st = mergeAll batches

/-- Rust `str::starts_with`, realised on the character lists (the byte-level
`String.startsWith` of Lean does not matter here: all strings involved are
ASCII). -/
def startsWithS (s pre : String) : Bool := pre.data.isPrefixOf s.data

/-- `Stats::normalize_species`: the fixed if/else chain from src/stats.rs,
in source order, first match wins, fall-through returns the input.  Note the
`"Gastrodon-East` rule is reproduced verbatim from the source, including its
missing trailing quote in the pattern and missing leading quote in the
replacement. -/
def normalize_species (species : String) : String :=
  if startsWithS species "\"Pikachu-" then "\"Pikachu\""
  else if startsWithS species "\"Unown-" then "\"Unown\""
  else if species = "\"Gastrodon-East" then "Gastrodon\""
  else if species = "\"Magearna-Original" then "\"Magearna\""
  else if species = "\"Genesect-Douse" then "\"Genesect\""
  else if startsWithS species "\"Basculin-" then "\"Basculin\""
  else if startsWithS species "\"Sawsbuck-" then "\"Sawsbuck\""
  else if startsWithS species "\"Vivillon-" then "\"Vivillon\""
  else if startsWithS species "\"Florges-" then "\"Florges\""
  else if startsWithS species "\"Furfrou-" then "\"Furfrou\""
  else if startsWithS species "\"Minior-" then "\"Minior\""
  else if startsWithS species "\"Gourgeist-" then "\"Gourgeist\""
  else if startsWithS species "\"Toxtricity-" then "\"Toxtricity\""
  else species

/-- Whether some rule of the normalization table matches, i.e. whether any of
the conditions of the if/else chain holds. -/
def matchesRule (species : String) : Bool :=
  startsWithS species "\"Pikachu-" || startsWithS species "\"Unown-" ||
  species = "\"Gastrodon-East" || species = "\"Magearna-Original" ||
  species = "\"Genesect-Douse" || startsWithS species "\"Basculin-" ||
  startsWithS species "\"Sawsbuck-" || startsWithS species "\"Vivillon-" ||
  startsWithS species "\"Florges-" || startsWithS species "\"Furfrou-" ||
  startsWithS species "\"Minior-" || startsWithS species "\"Gourgeist-" ||
  startsWithS species "\"Toxtricity-"

/-- The right-hand sides of the normalization table. -/
def ruleOutputs : List String :=
  ["\"Pikachu\"", "\"Unown\"", "Gastrodon\"", "\"Magearna\"", "\"Genesect\"",
   "\"Basculin\"", "\"Sawsbuck\"", "\"Vivillon\"", "\"Florges\"", "\"Furfrou\"",
   "\"Minior\"", "\"Gourgeist\"", "\"Toxtricity\""]

/-- Case analysis over the if/else chain of `normalize_species`: either no
rule matches and the input is returned unchanged, or some rule matches and the
output is one of the fixed rule outputs. -/
lemma normalize_species_master (s : String) :
    (matchesRule s = false ∧ normalize_species s = s) ∨
    (matchesRule s = true ∧ normalize_species s ∈ ruleOutputs) := by
  unfold normalize_species
  by_cases h1 : startsWithS s "\"Pikachu-" = true
  · rw [if_pos h1]; exact Or.inr ⟨by simp [matchesRule, h1], by decide⟩
  rw [if_neg h1]
  by_cases h2 : startsWithS s "\"Unown-" = true
  · rw [if_pos h2]; exact Or.inr ⟨by simp [matchesRule, h2], by decide⟩
  rw [if_neg h2]
  by_cases h3 : s = "\"Gastrodon-East"
  · rw [if_pos h3]; exact Or.inr ⟨by simp [matchesRule, h3], by decide⟩
  rw [if_neg h3]
  by_cases h4 : s = "\"Magearna-Original"
  · rw [if_pos h4]; exact Or.inr ⟨by simp [matchesRule, h4], by decide⟩
  rw [if_neg h4]
  by_cases h5 : s = "\"Genesect-Douse"
  · rw [if_pos h5]; exact Or.inr ⟨by simp [matchesRule, h5], by decide⟩
  rw [if_neg h5]
  by_cases h6 : startsWithS s "\"Basculin-" = true
  · rw [if_pos h6]; exact Or.inr ⟨by simp [matchesRule, h6], by decide⟩
  rw [if_neg h6]
  by_cases h7 : startsWithS s "\"Sawsbuck-" = true
  · rw [if_pos h7]; exact Or.inr ⟨by simp [matchesRule, h7], by decide⟩
  rw [if_neg h7]
  by_cases h8 : startsWithS s "\"Vivillon-" = true
  · rw [if_pos h8]; exact Or.inr ⟨by simp [matchesRule, h8], by decide⟩
  rw [if_neg h8]
  by_cases h9 : startsWithS s "\"Florges-" = true
  · rw [if_pos h9]; exact Or.inr ⟨by simp [matchesRule, h9], by decide⟩
  rw [if_neg h9]
  by_cases h10 : startsWithS s "\"Furfrou-" = true
  · rw [if_pos h10]; exact Or.inr ⟨by simp [matchesRule, h10], by decide⟩
  rw [if_neg h10]
  by_cases h11 : startsWithS s "\"Minior-" = true
  · rw [if_pos h11]; exact Or.inr ⟨by simp [matchesRule, h11], by decide⟩
  rw [if_neg h11]
  by_cases h12 : startsWithS s "\"Gourgeist-" = true
  · rw [if_pos h12]; exact Or.inr ⟨by simp [matchesRule, h12], by decide⟩
  rw [if_neg h12]
  by_cases h13 : startsWithS s "\"Toxtricity-" = true
  · rw [if_pos h13]; exact Or.inr ⟨by simp [matchesRule, h13], by decide⟩
  rw [if_neg h13]
  exact Or.inl ⟨by simp [matchesRule, h1, h2, h3, h4, h5, h6, h7, h8, h9, h10,
    h11, h12, h13], rfl⟩

/-- Every right-hand side of the normalization table is itself a fixpoint of
`normalize_species`: no output of a rule matches any rule. -/
lemma normalize_species_fix : ∀ c ∈ ruleOutputs, normalize_species c = c := by decide

/-! ## The ranking comparator

`PokemonStats::final_stats` computes, in `f32`,
`winrate = wins / games * 100` and
`deviations = (winrate - 50) * sqrt(games) / 50`.
`Stats::sort` orders the map with the comparator
`b.final_stats().deviations.partial_cmp(&a.final_stats().deviations).unwrap()`.

We model the numeric values of these statistics by their exact real-number
counterparts (`final_winrate`, `final_deviations` below).  The comparison the
comparator performs is realised exactly on integers: for `games > 0`,
`deviations = (2*wins - games) / sqrt games`, and `t ↦ t * |t|` is strictly
monotone, so comparing deviations is the same as comparing the rationals
`(2*wins - games) * |2*wins - games| / games`, which cross-multiplies to an
integer comparison (`devNum`/`devDen`, equivalence proved in
`sortLe_iff_real`).  An `f32` `deviations` value is NaN exactly when
`games = 0` (`0/0` or `inf * 0`); `partial_cmp` returns `None` iff an operand
is NaN, which `cmpDevChecked` models. -/

/-- Numerator of the exact deviations comparison key
(`(2*wins - games) * |2*wins - games|`); `0` in the `games = 0` (NaN) case,
where only `cmpDevChecked` is meaningful. -/
def devNum (s : PokemonStats) : Int :=
  if s.games = 0 then 0
  else (2 * (s.wins : Int) - (s.games : Int)) * |2 * (s.wins : Int) - (s.games : Int)|

/-- Positive denominator of the exact deviations comparison key. -/
def devDen (s : PokemonStats) : Int := if s.games = 0 then 1 else (s.games : Int)

/-- The `Ordering` that `b.final_stats().deviations.partial_cmp(&a...)`
unwraps to, computed exactly by cross-multiplication. -/
def cmpDev (b a : PokemonStats) : Ordering :=
  compare (devNum b * devDen a) (devNum a * devDen b)

/-- `b.final_stats().deviations.partial_cmp(&a.final_stats().deviations)`:
`none` exactly when one operand is NaN, i.e. has `games = 0`. -/
def cmpDevChecked (b a : PokemonStats) : Option Ordering :=
  if b.games = 0 ∨ a.games = 0 then none else some (cmpDev b a)

/-- A stable comparator-based sort keeps `a` before `b` whenever the
comparator does not answer `Greater` on `(a, b)`; this is the boolean order
relation realising the sort of `Stats::sort`. -/
def sortLe (a b : String × PokemonStats) : Bool :=
  match cmpDev b.2 a.2 with
  | Ordering.gt => false
  | _ => true

/-- `Stats::sort`: a no-op when `is_sorted` is set (the source never actually
sets it, see `add_game_results`), otherwise a stable sort of the entry list by
the comparator.  `IndexMap::sort_by` and Rust's slice sort are stable merge
sorts, modelled by `List.mergeSort`. -/
def Stats.sort (st : Stats) : Stats :=
  if st.is_sorted then st
  else { st with pokemon := st.pokemon.mergeSort sortLe }

/-- Exact value of the `f32` winrate of `PokemonStats::final_stats`:
`(wins as f32 / games as f32) * 100.0`. -/
noncomputable def final_winrate (s : PokemonStats) : ℝ :=
  ((s.wins : ℝ) / (s.games : ℝ)) * 100

/-- Exact value of the `f32` deviations metric of `PokemonStats::final_stats`:
`(winrate - 50.0) * games.sqrt() / 50.0`. -/
noncomputable def final_deviations (s : PokemonStats) : ℝ :=
  (final_winrate s - 50) * Real.sqrt (s.games : ℝ) / 50

lemma sortLe_eq_true_iff (a b : String × PokemonStats) :
    sortLe a b = true ↔ devNum b.2 * devDen a.2 ≤ devNum a.2 * devDen b.2 := by
  unfold sortLe cmpDev
  rcases h : compare (devNum b.2 * devDen a.2) (devNum a.2 * devDen b.2) with _ | _ | _
  · rw [compare_lt_iff_lt] at h
    simp [compare_lt_iff_lt.mpr h]
    omega
  · rw [compare_eq_iff_eq] at h
    simp [compare_eq_iff_eq.mpr h]
    omega
  · rw [compare_gt_iff_gt] at h
    simp [compare_gt_iff_gt.mpr h]
    omega

lemma devDen_pos (s : PokemonStats) : 0 < devDen s := by
  unfold devDen
  split
  · omega
  · omega

lemma strictMono_mulAbs : StrictMono (fun t : ℝ => t * |t|) := by
  intro x y hxy
  simp only
  rcases le_or_lt 0 x with hx | hx
  · rw [abs_of_nonneg hx, abs_of_nonneg (le_of_lt (lt_of_le_of_lt hx hxy))]
    exact mul_self_lt_mul_self hx hxy
  · rcases le_or_lt 0 y with hy | hy
    · have h1 : x * |x| < 0 := by
        rw [abs_of_neg hx]
        nlinarith
      have h2 : 0 ≤ y * |y| := mul_nonneg hy (abs_nonneg y)
      linarith
    · rw [abs_of_neg hx, abs_of_neg hy]
      nlinarith

/-- For an entry with at least one game, the deviations metric equals
`(2*wins - games) * sqrt games / games`. -/
lemma final_deviations_eq {s : PokemonStats} (h : 0 < s.games) :
    final_deviations s =
      (2 * (s.wins : ℝ) - (s.games : ℝ)) * Real.sqrt (s.games : ℝ) / (s.games : ℝ) := by
  have hg : ((s.games : ℝ)) ≠ 0 := by positivity
  unfold final_deviations final_winrate
  field_simp
  ring

/-- The signed square of the deviations metric is exactly `devNum / devDen`. -/
lemma mulAbs_final_deviations (s : PokemonStats) :
    final_deviations s * |final_deviations s| = (devNum s : ℝ) / (devDen s : ℝ) := by
  rcases Nat.eq_zero_or_pos s.games with h | h
  · unfold final_deviations final_winrate devNum devDen
    rw [h]
    simp
  · have hg : (0 : ℝ) < (s.games : ℝ) := by positivity
    have hs : Real.sqrt (s.games : ℝ) * Real.sqrt (s.games : ℝ) = (s.games : ℝ) :=
      Real.mul_self_sqrt (le_of_lt hg)
    have hsn : 0 ≤ Real.sqrt (s.games : ℝ) := Real.sqrt_nonneg _
    rw [final_deviations_eq h]
    unfold devNum devDen
    rw [if_neg (by omega), if_neg (by omega)]
    rw [abs_div, abs_mul, abs_of_nonneg hsn, abs_of_pos hg]
    push_cast
    rw [div_mul_div_comm]
    rw [show (2 * (s.wins : ℝ) - (s.games : ℝ)) * Real.sqrt (s.games : ℝ) *
          (|2 * (s.wins : ℝ) - (s.games : ℝ)| * Real.sqrt (s.games : ℝ)) =
        (2 * (s.wins : ℝ) - (s.games : ℝ)) * |2 * (s.wins : ℝ) - (s.games : ℝ)| *
          (Real.sqrt (s.games : ℝ) * Real.sqrt (s.games : ℝ)) by ring, hs]
    rw [mul_div_assoc]
    have hgg : (s.games : ℝ) / ((s.games : ℝ) * (s.games : ℝ)) = 1 / (s.games : ℝ) := by
      rw [div_mul_eq_div_div, div_self (ne_of_gt hg)]
    rw [hgg, mul_one_div]

/-- The integer cross-multiplied comparison decides the real deviations
comparison. -/
lemma devCross_le_iff (x y : PokemonStats) :
    devNum x * devDen y ≤ devNum y * devDen x ↔
      final_deviations x ≤ final_deviations y := by
  have hx : (0 : ℝ) < (devDen x : ℝ) := by
    have := devDen_pos x
    exact_mod_cast this
  have hy : (0 : ℝ) < (devDen y : ℝ) := by
    have := devDen_pos y
    exact_mod_cast this
  rw [← strictMono_mulAbs.le_iff_le, mulAbs_final_deviations, mulAbs_final_deviations,
    div_le_div_iff₀ hx hy]
  rw [show ((devNum x : ℝ)) * (devDen y : ℝ) = (((devNum x * devDen y : Int)) : ℝ) by push_cast; ring,
    show ((devNum y : ℝ)) * (devDen x : ℝ) = (((devNum y * devDen x : Int)) : ℝ) by push_cast; ring]
  exact Iff.symm Int.cast_le

/-- The boolean sort relation holds exactly when the second entry's deviations
metric does not exceed the first's: the sort is descending by deviations. -/
lemma sortLe_iff_real (a b : String × PokemonStats) :
    sortLe a b = true ↔ final_deviations b.2 ≤ final_deviations a.2 := by
  rw [sortLe_eq_true_iff]
  exact devCross_le_iff b.2 a.2

lemma sortLe_total (a b : String × PokemonStats) : sortLe a b || sortLe b a := by
  rcases le_total (final_deviations b.2) (final_deviations a.2) with h | h
  · simp [(sortLe_iff_real a b).mpr h]
  · simp [(sortLe_iff_real b a).mpr h]

lemma sortLe_trans (a b c : String × PokemonStats) :
    sortLe a b → sortLe b c → sortLe a c := by
  intro h1 h2
  rw [sortLe_iff_real] at h1 h2 ⊢
  exact le_trans h2 h1

/-- One row of the table built by `Stats::to_human_readable`: the 1-based
rank counter, the species name with first and last byte sliced off
(`&pokemon[1..len-1]`), and the entry's counters (from which the rendered
numeric cells derive).  The ASCII framing of `prettytable` is presentation
only and not part of the embedding. -/
structure HumanRow where
  rank : Nat
  name : List Char
  stats : PokemonStats
deriving DecidableEq

/-- The row-building loop of `Stats::to_human_readable`: `cur_rank` starts at
1 and increments by 1 per entry, in sorted order. -/
def humanRowsAux : Nat → List (String × PokemonStats) → List HumanRow
  | _, [] => []
  | curRank, (p, s) :: rest =>
    ⟨curRank, (p.data.drop 1).dropLast, s⟩ :: humanRowsAux (curRank + 1) rest

/-- The rows of the table produced by `Stats::to_human_readable` (which first
calls `self.sort()`). -/
def Stats.to_human_readable_rows (st : Stats) : List HumanRow :=
  humanRowsAux 1 (Stats.sort st).pokemon

lemma humanRowsAux_ranks (k : Nat) (l : List (String × PokemonStats)) :
    (humanRowsAux k l).map HumanRow.rank = List.range' k l.length := by
  induction l generalizing k with
  | nil => rfl
  | cons hd tl ih =>
    obtain ⟨p, s⟩ := hd
    simp [humanRowsAux, List.range', ih]

/-! ## Record extraction: `Stats::process_json`

`process_json` receives the seven extracted JSON fields of one battle record
(see src/main.rs: p1 elo, p1 team, p1 name, p2 elo, p2 team, p2 name, winner),
each an optional byte slice, modelled as a structure of seven
`Option String`s.  Two collaborator functions are passed explicitly:

* `parseRating` models `str::parse::<f64>` on the rating text: `none` when
  parsing fails, otherwise the exact rational value of the parsed double.
* `parseSpecies` models one`pikkr` parse of a re-wrapped team entry followed
  by `.get(0)`: `Except.error` when the entry is malformed JSON (the `?`
  propagation path), `Except.ok none` when no species field is produced
  (the `continue` path), `Except.ok (some bytes)` for the species byte slice
  (still carrying its JSON quotes).

A `ProcessResult` distinguishes the `Ok(results)` return, the `Err(_)`
return (from `?` on a pikkr error), and a panic (the `.unwrap()` calls on
`strip_prefix`/`strip_suffix` when the team blob lacks the `[{`…`}]` shape;
braces inside literals are written with `\x7b`/`\x7d` escapes). -/

/-- The seven extracted fields of one record, in src/main.rs index order. -/
structure BattleJson where
  p1elo : Option String
  p1team : Option String
  p1name : Option String
  p2elo : Option String
  p2team : Option String
  p2name : Option String
  winner : Option String
deriving DecidableEq

/-- Rust's saturating `f64 as u64` cast applied to the exact value of the
double: NaN-free rationals below 0 clamp to 0, otherwise truncate toward zero
and saturate at `2^64 - 1`. -/
def ratToU64 (q : Rat) : Nat :=
  if q < 0 then 0 else min q.floor.toNat (2 ^ 64 - 1)

/-- Rust `str::strip_prefix` (returns the remainder on a match). -/
def stripPre (pre s : String) : Option String :=
  if pre.data.isPrefixOf s.data then some (String.mk (s.data.drop pre.data.length)) else none

/-- Rust `str::strip_suffix` (returns the remainder on a match). -/
def stripSuf (suf s : String) : Option String :=
  if suf.data.isSuffixOf s.data then some (String.mk (s.data.take (s.data.length - suf.data.length)))
  else none

/-- Rust `str::split("\x7d,\x7b")` (leftmost, non-overlapping), specialised to
the three-character team separator `\x7d,\x7b`. -/
def splitTeamSep : List Char → List (List Char)
  | [] => [[]]
  | '\x7d' :: ',' :: '\x7b' :: rest => [] :: splitTeamSep rest
  | c :: rest =>
    match splitTeamSep rest with
    | [] => [[c]]
    | y :: ys => (c :: y) :: ys

/-- Outcome of scanning one team's entry list. -/
inductive TeamOutcome
  | ok : List GameResult → TeamOutcome
  | error : TeamOutcome
deriving DecidableEq

/-- The inner `for pkmn_json in … .split("\x7d,\x7b")` loop of
`process_json`: each entry is re-wrapped in braces and handed to the JSON
collaborator; a decode error aborts the whole extraction (`?`), a missing
species is skipped (`continue`), otherwise the normalized species is emitted
with the team's `won` flag. -/
def entriesResults (parseSpecies : String → Except Unit (Option String)) (won : Bool) :
    List (List Char) → TeamOutcome
  | [] => TeamOutcome.ok []
  | e :: es =>
    match parseSpecies (String.mk ('\x7b' :: (e ++ ['\x7d']))) with
    | Except.error _ => TeamOutcome.error
    | Except.ok none => entriesResults parseSpecies won es
    | Except.ok (some sp) =>
      match entriesResults parseSpecies won es with
      | TeamOutcome.ok rs => TeamOutcome.ok (⟨normalize_species sp, won⟩ :: rs)
      | TeamOutcome.error => TeamOutcome.error

/-- Result of `Stats::process_json`: a normal return, an `Err` return, or a
panic from one of the `.unwrap()`s on the team-blob shape. -/
inductive ProcessResult
  | ok : List GameResult → ProcessResult
  | error : ProcessResult
  | panic : ProcessResult
deriving DecidableEq

/-- Processing of one present team blob: strip the `[\x7b` and `\x7d]`
delimiters (panicking like the source's `.unwrap()` when they are absent),
split on the entry separator, and scan the entries. -/
def processTeam (parseSpecies : String → Except Unit (Option String)) (won : Bool)
    (t : String) : ProcessResult :=
  match stripPre "[\x7b" t with
  | none => ProcessResult.panic
  | some t1 =>
    match stripSuf "\x7d]" t1 with
    | none => ProcessResult.panic
    | some t2 =>
      match entriesResults parseSpecies won (splitTeamSep t2.data) with
      | TeamOutcome.ok rs => ProcessResult.ok rs
      | TeamOutcome.error => ProcessResult.error

/-- `Stats::process_json`.  The elo check walks `[json[0], json[3]]` in order:
a missing rating, an unparsable rating, or a rating whose `f64 as u64` cast is
below `min_elo` returns `Ok(vec![])`.  Then each present team is processed
with `won = (json[6] == json[team_idx + 1])` (`Option` equality), teams in
order p1 then p2, with absent teams skipped (`continue`). -/
def process_json (parseSpecies : String → Except Unit (Option String))
    (parseRating : String → Option Rat) (min_elo : Nat) (j : BattleJson) : ProcessResult :=
  match j.p1elo with
  | none => ProcessResult.ok []
  | some r1 =>
    match parseRating r1 with
    | none => ProcessResult.ok []
    | some q1 =>
      if ratToU64 q1 < min_elo then ProcessResult.ok []
      else
        match j.p2elo with
        | none => ProcessResult.ok []
        | some r2 =>
          match parseRating r2 with
          | none => ProcessResult.ok []
          | some q2 =>
            if ratToU64 q2 < min_elo then ProcessResult.ok []
            else
              match (match j.p1team with
                     | none => ProcessResult.ok []
                     | some t => processTeam parseSpecies (decide (j.winner = j.p1name)) t) with
              | ProcessResult.panic => ProcessResult.panic
              | ProcessResult.error => ProcessResult.error
              | ProcessResult.ok rs1 =>
                match j.p2team with
                | none => ProcessResult.ok rs1
                | some t2 =>
                  match processTeam parseSpecies (decide (j.winner = j.p2name)) t2 with
                  | ProcessResult.panic => ProcessResult.panic
                  | ProcessResult.error => ProcessResult.error
                  | ProcessResult.ok rs2 => ProcessResult.ok (rs1 ++ rs2)

/-! ## CSV rendering: `Stats::to_csv`

`to_csv` first calls `self.sort()`, then renders one line per entry —
`[species, games, wins, winrate, deviations].join(",")` — and intersperses
the lines with `"\n"` (so no trailing newline).  Rendered strings are
modelled at character level (`List Char`).  `u32::to_string` is modelled by
`natChars` (decimal digits).  The two `f32::to_string` cells are modelled by
comma- and newline-free injective renderings of the exact values
(`winrate = 100*wins/games` as an unreduced fraction, `deviations` via its
signed-square key `devNum/devDen`): the claims under check constrain the
line and field structure of the output, not the decimal text of the floats. -/

/-- Decimal rendering of a natural number (`u32::to_string`). -/
def natChars (n : Nat) : List Char :=
  if n < 10 then [Char.ofNat (48 + n)]
  else natChars (n / 10) ++ [Char.ofNat (48 + n % 10)]
decreasing_by exact Nat.div_lt_self (by omega) (by omega)

/-- Decimal rendering of an integer (sign plus digits). -/
def intChars (i : Int) : List Char :=
  if i < 0 then '-' :: natChars i.natAbs else natChars i.natAbs

/-- Rendering of the winrate cell: the exact value `100 * wins / games` as an
unreduced fraction. -/
def winrateChars (s : PokemonStats) : List Char :=
  natChars (100 * s.wins) ++ ('/' :: natChars s.games)

/-- Rendering of the deviations cell: the exact signed-square key
`devNum / devDen` of the deviations value as an unreduced fraction. -/
def deviationsChars (s : PokemonStats) : List Char :=
  intChars (devNum s) ++ ('/' :: intChars (devDen s))

/-- The five CSV fields of one entry, in source order:
species (verbatim, still carrying its JSON quotes), games, wins, winrate,
deviations. -/
def csvFields (e : String × PokemonStats) : List (List Char) :=
  [e.1.data, natChars e.2.games, natChars e.2.wins, winrateChars e.2, deviationsChars e.2]

/-- One CSV line: the five fields joined by commas. -/
def csvLine (e : String × PokemonStats) : List Char :=
  List.intercalate [','] (csvFields e)

/-- `Stats::to_csv`: sort, render each entry, join lines with a single
newline (`Itertools::intersperse`), no trailing newline. -/
def Stats.to_csv (st : Stats) : List Char :=
  List.intercalate ['\n'] (((Stats.sort st).pokemon).map csvLine)

/-- Splitting a character list on a separator character (how a consumer
parses the CSV back: lines on a newline, fields on a comma). -/
def splitOnChar (c : Char) : List Char → List (List Char)
  | [] => [[]]
  | x :: xs =>
    if x = c then [] :: splitOnChar c xs
    else
      match splitOnChar c xs with
      | [] => [[x]]
      | y :: ys => (x :: y) :: ys

lemma splitOnChar_ne_nil (c : Char) (l : List Char) : splitOnChar c l ≠ [] := by
  induction l with
  | nil => simp [splitOnChar]
  | cons x xs ih =>
    unfold splitOnChar
    split
    · simp
    · match h : splitOnChar c xs with
      | [] => simp
      | y :: ys => simp

lemma splitOnChar_of_not_mem {c : Char} {l : List Char} (h : c ∉ l) :
    splitOnChar c l = [l] := by
  induction l with
  | nil => rfl
  | cons x xs ih =>
    unfold splitOnChar
    rw [if_neg (by intro hx; exact h (hx ▸ List.mem_cons_self x xs))]
    rw [ih (fun hm => h (List.mem_cons_of_mem x hm))]

lemma splitOnChar_append {c : Char} {l1 : List Char} (l2 : List Char) (h : c ∉ l1) :
    splitOnChar c (l1 ++ c :: l2) = l1 :: splitOnChar c l2 := by
  induction l1 with
  | nil => simp [splitOnChar]
  | cons x xs ih =>
    have hx : x ≠ c := fun hx => h (hx ▸ List.mem_cons_self x xs)
    have hxs : c ∉ xs := fun hm => h (List.mem_cons_of_mem x hm)
    rw [List.cons_append]
    simp only [splitOnChar]
    rw [if_neg hx, ih hxs]

lemma intercalate_singleton {α : Type} (s a : List α) :
    List.intercalate s [a] = a := by
  simp [List.intercalate, List.intersperse]

lemma intercalate_cons_cons {α : Type} (s a b : List α) (t : List (List α)) :
    List.intercalate s (a :: b :: t) = a ++ s ++ List.intercalate s (b :: t) := by
  simp [List.intercalate, List.intersperse]

/-- Round trip of `intercalate` with a single-character separator: splitting
recovers the pieces when no piece contains the separator. -/
lemma splitOnChar_intercalate (c : Char) :
    ∀ xss : List (List Char), xss ≠ [] → (∀ xs ∈ xss, c ∉ xs) →
      splitOnChar c (List.intercalate [c] xss) = xss
  | [], h, _ => absurd rfl h
  | [x], _, hmem => by
    rw [intercalate_singleton]
    exact splitOnChar_of_not_mem (hmem x (by simp))
  | x :: y :: t, _, hmem => by
    rw [intercalate_cons_cons]
    rw [List.append_assoc, List.singleton_append]
    rw [splitOnChar_append _ (hmem x (by simp))]
    rw [splitOnChar_intercalate c (y :: t) (by simp)
      (fun xs hxs => hmem xs (List.mem_cons_of_mem x hxs))]

lemma mem_intercalate_singleton {α : Type} [DecidableEq α] {ch c : α} :
    ∀ {xss : List (List α)}, ch ∈ List.intercalate [c] xss →
      ch = c ∨ ∃ xs ∈ xss, ch ∈ xs
  | [], h => by simp [List.intercalate] at h
  | [x], h => by
    rw [intercalate_singleton] at h
    exact Or.inr ⟨x, by simp, h⟩
  | x :: y :: t, h => by
    rw [intercalate_cons_cons] at h
    rcases List.mem_append.mp h with h1 | h2
    · rcases List.mem_append.mp h1 with h3 | h4
      · exact Or.inr ⟨x, by simp, h3⟩
      · exact Or.inl (List.mem_singleton.mp h4)
    · rcases mem_intercalate_singleton h2 with h5 | ⟨xs, hxs, hch⟩
      · exact Or.inl h5
      · exact Or.inr ⟨xs, List.mem_cons_of_mem x hxs, hch⟩

/-! ## Characterisation of the merge operation -/

/-- The step function of the `add_game_results` loop. -/
def addStep (m : List (String × PokemonStats)) (r : GameResult) : List (String × PokemonStats) :=
  addResult m r.species (winVal r.won)

/-- Number of results in a batch naming a given species. -/
def countGames (sp : String) (l : List GameResult) : Nat :=
  l.countP (fun r => r.species == sp)

/-- Number of won results in a batch naming a given species. -/
def countWins (sp : String) (l : List GameResult) : Nat :=
  l.countP (fun r => r.species == sp && r.won)

lemma lookupStats_addResult (m : List (String × PokemonStats)) (k : String) (w : Nat)
    (sp : String) :
    lookupStats (addResult m k w) sp =
      if sp = k then
        match lookupStats m k with
        | none => some ⟨1, w⟩
        | some s => some ⟨s.games + 1, s.wins + w⟩
      else lookupStats m sp := by
  induction m with
  | nil =>
    simp only [addResult, lookupStats]
    by_cases h : sp = k
    · subst h
      simp
    · rw [if_neg (fun hk : k = sp => h hk.symm), if_neg h]
  | cons hd tl ih =>
    obtain ⟨k0, v⟩ := hd
    by_cases hk0 : k0 = k
    · subst hk0
      simp only [addResult, if_pos rfl]
      by_cases h : sp = k0
      · subst h
        simp [lookupStats]
      · rw [if_neg h]
        simp only [lookupStats, if_neg (fun hk : k0 = sp => h hk.symm)]
    · simp only [addResult, if_neg hk0]
      by_cases h : sp = k
      · subst h
        have hk0' : ¬ k0 = sp := fun he => hk0 he
        simp only [lookupStats, if_neg hk0', ih, if_pos rfl]
      · rw [if_neg h]
        by_cases h2 : k0 = sp
        · simp [lookupStats, h2]
        · simp only [lookupStats, if_neg h2, ih, if_neg h]

lemma lookupStats_foldl (l : List GameResult) (m : List (String × PokemonStats)) (sp : String) :
    lookupStats (l.foldl addStep m) sp =
      match lookupStats m sp with
      | none =>
        if countGames sp l = 0 then none else some ⟨countGames sp l, countWins sp l⟩
      | some s => some ⟨s.games + countGames sp l, s.wins + countWins sp l⟩ := by
  induction l generalizing m with
  | nil =>
    simp only [List.foldl_nil, countGames, countWins, List.countP_nil]
    rcases h : lookupStats m sp with _ | s
    · simp
    · simp
  | cons r tl ih =>
    rw [List.foldl_cons, ih]
    unfold addStep
    rw [lookupStats_addResult]
    by_cases hsp : r.species = sp
    · have hcg : countGames sp (r :: tl) = countGames sp tl + 1 := by
        simp [countGames, List.countP_cons, hsp]
      have hcw : countWins sp (r :: tl) = countWins sp tl + winVal r.won := by
        rcases hwon : r.won with _ | _
        · simp [countWins, List.countP_cons, hsp, hwon, winVal]
        · simp [countWins, List.countP_cons, hsp, hwon, winVal]
      rw [if_pos hsp.symm, hsp, hcg, hcw]
      rcases h : lookupStats m sp with _ | s
      · simp only [if_neg (by omega : ¬ countGames sp tl + 1 = 0), Option.some.injEq,
          PokemonStats.mk.injEq]
        constructor <;> omega
      · simp only [Option.some.injEq, PokemonStats.mk.injEq]
        constructor <;> omega
    · have hsp' : ¬ sp = r.species := fun he => hsp he.symm
      rw [if_neg hsp']
      have hcg : countGames sp (r :: tl) = countGames sp tl := by
        simp [countGames, List.countP_cons, hsp]
      have hcw : countWins sp (r :: tl) = countWins sp tl := by
        simp [countWins, List.countP_cons, hsp]
      rw [hcg, hcw]

lemma add_game_results_pokemon (st : Stats) (results : List GameResult) :
    (st.add_game_results results).pokemon = results.foldl addStep st.pokemon := by
  unfold Stats.add_game_results
  split
  · next h =>
    rw [List.isEmpty_iff.mp h]
    rfl
  · rfl

lemma mergeAll_pokemon_aux (bs : List (List GameResult)) (st : Stats) :
    (bs.foldl Stats.add_game_results st).pokemon = bs.flatten.foldl addStep st.pokemon := by
  induction bs generalizing st with
  | nil => rfl
  | cons b t ih =>
    rw [List.foldl_cons, ih, List.flatten_cons, List.foldl_append, add_game_results_pokemon]

lemma mergeAll_pokemon (bs : List (List GameResult)) :
    (mergeAll bs).pokemon = bs.flatten.foldl addStep [] :=
  mergeAll_pokemon_aux bs Stats.new

/-- Lookup in a store built from the empty one counts occurrences in the
flattened result sequence. -/
lemma lookupStats_mergeAll (bs : List (List GameResult)) (sp : String) :
    lookupStats (mergeAll bs).pokemon sp =
      if countGames sp bs.flatten = 0 then none
      else some ⟨countGames sp bs.flatten, countWins sp bs.flatten⟩ := by
  rw [mergeAll_pokemon, lookupStats_foldl]
  simp only [lookupStats]

/-! ## Counter invariants over reachable stores -/

lemma addResult_inv {P : PokemonStats → Prop} {m : List (String × PokemonStats)}
    {k : String} {w : Nat} (hm : ∀ e ∈ m, P e.2) (h1 : P ⟨1, w⟩)
    (h2 : ∀ s : PokemonStats, P s → P ⟨s.games + 1, s.wins + w⟩) :
    ∀ e ∈ addResult m k w, P e.2 := by
  induction m with
  | nil =>
    intro e he
    simp only [addResult, List.mem_singleton] at he
    rw [he]
    exact h1
  | cons hd tl ih =>
    obtain ⟨k0, v⟩ := hd
    intro e he
    simp only [addResult] at he
    split at he
    · rcases List.mem_cons.mp he with h | h
      · rw [h]
        exact h2 v (hm (k0, v) (by simp))
      · exact hm e (List.mem_cons_of_mem _ h)
    · rcases List.mem_cons.mp he with h | h
      · rw [h]
        exact hm (k0, v) (by simp)
      · exact ih (fun e' he' => hm e' (List.mem_cons_of_mem _ he')) e h

lemma foldl_addStep_inv {P : PokemonStats → Prop}
    (h1 : ∀ w : Nat, w ≤ 1 → P ⟨1, w⟩)
    (h2 : ∀ (s : PokemonStats) (w : Nat), w ≤ 1 → P s → P ⟨s.games + 1, s.wins + w⟩) :
    ∀ (l : List GameResult) (m : List (String × PokemonStats)),
      (∀ e ∈ m, P e.2) → ∀ e ∈ l.foldl addStep m, P e.2 := by
  intro l
  induction l with
  | nil => intro m hm e he; exact hm e he
  | cons r tl ih =>
    intro m hm e he
    rw [List.foldl_cons] at he
    have hw : winVal r.won ≤ 1 := by
      unfold winVal
      split <;> omega
    exact ih (addResult m r.species (winVal r.won))
      (addResult_inv hm (h1 _ hw) (fun s hs => h2 s _ hw hs)) e he

/-- Every entry of a reachable store has `wins ≤ games`. -/
lemma reachable_wins_le_games {st : Stats} (h : Reachable st) :
    ∀ e ∈ st.pokemon, e.2.wins ≤ e.2.games := by
  obtain ⟨bs, rfl⟩ := h
  rw [mergeAll_pokemon]
  refine @foldl_addStep_inv (fun s => s.wins ≤ s.games) ?_ ?_ bs.flatten [] ?_
  · intro w hw
    exact hw
  · intro s w hw hs
    have hs' : s.wins ≤ s.games := hs
    show s.wins + w ≤ s.games + 1
    omega
  · simp

/-- Every entry of a reachable store has at least one game. -/
lemma reachable_games_pos {st : Stats} (h : Reachable st) :
    ∀ e ∈ st.pokemon, 1 ≤ e.2.games := by
  obtain ⟨bs, rfl⟩ := h
  rw [mergeAll_pokemon]
  refine @foldl_addStep_inv (fun s => 1 ≤ s.games) ?_ ?_ bs.flatten [] ?_
  · intro w _
    show 1 ≤ 1
    omega
  · intro s w _ hs
    show 1 ≤ s.games + 1
    omega
  · simp

/-! ## Permutation facts about the sort -/

lemma sort_pokemon_perm (st : Stats) : (Stats.sort st).pokemon.Perm st.pokemon := by
  unfold Stats.sort
  split
  · exact List.Perm.refl _
  · exact List.mergeSort_perm st.pokemon sortLe

lemma mem_sort_pokemon {st : Stats} {e : String × PokemonStats} :
    e ∈ (Stats.sort st).pokemon ↔ e ∈ st.pokemon :=
  (sort_pokemon_perm st).mem_iff

/-! ## Lemmas about the elo gate of `process_json` -/

lemma process_json_p1elo_none {pS : String → Except Unit (Option String)}
    {pR : String → Option Rat} {min_elo : Nat} {j : BattleJson} (h : j.p1elo = none) :
    process_json pS pR min_elo j = ProcessResult.ok [] := by
  unfold process_json
  rw [h]

lemma process_json_p1elo_unparsable {pS : String → Except Unit (Option String)}
    {pR : String → Option Rat} {min_elo : Nat} {j : BattleJson} {r : String}
    (h : j.p1elo = some r) (hp : pR r = none) :
    process_json pS pR min_elo j = ProcessResult.ok [] := by
  unfold process_json
  simp only [h, hp]

lemma process_json_p1elo_low {pS : String → Except Unit (Option String)}
    {pR : String → Option Rat} {min_elo : Nat} {j : BattleJson} {r : String} {q : Rat}
    (h : j.p1elo = some r) (hp : pR r = some q) (hq : ratToU64 q < min_elo) :
    process_json pS pR min_elo j = ProcessResult.ok [] := by
  unfold process_json
  simp only [h, hp]
  rw [if_pos hq]

lemma process_json_p2elo_none {pS : String → Except Unit (Option String)}
    {pR : String → Option Rat} {min_elo : Nat} {j : BattleJson} (h : j.p2elo = none) :
    process_json pS pR min_elo j = ProcessResult.ok [] := by
  rcases h1 : j.p1elo with _ | r1
  · exact process_json_p1elo_none h1
  rcases hp1 : pR r1 with _ | q1
  · exact process_json_p1elo_unparsable h1 hp1
  by_cases hq1 : ratToU64 q1 < min_elo
  · exact process_json_p1elo_low h1 hp1 hq1
  · unfold process_json
    simp only [h1, hp1, h]
    rw [if_neg hq1]

lemma process_json_p2elo_unparsable {pS : String → Except Unit (Option String)}
    {pR : String → Option Rat} {min_elo : Nat} {j : BattleJson} {r : String}
    (h : j.p2elo = some r) (hp : pR r = none) :
    process_json pS pR min_elo j = ProcessResult.ok [] := by
  rcases h1 : j.p1elo with _ | r1
  · exact process_json_p1elo_none h1
  rcases hp1 : pR r1 with _ | q1
  · exact process_json_p1elo_unparsable h1 hp1
  by_cases hq1 : ratToU64 q1 < min_elo
  · exact process_json_p1elo_low h1 hp1 hq1
  · unfold process_json
    simp only [h1, hp1, h, hp]
    rw [if_neg hq1]

lemma process_json_p2elo_low {pS : String → Except Unit (Option String)}
    {pR : String → Option Rat} {min_elo : Nat} {j : BattleJson} {r : String} {q : Rat}
    (h : j.p2elo = some r) (hp : pR r = some q) (hq : ratToU64 q < min_elo) :
    process_json pS pR min_elo j = ProcessResult.ok [] := by
  rcases h1 : j.p1elo with _ | r1
  · exact process_json_p1elo_none h1
  rcases hp1 : pR r1 with _ | q1
  · exact process_json_p1elo_unparsable h1 hp1
  by_cases hq1 : ratToU64 q1 < min_elo
  · exact process_json_p1elo_low h1 hp1 hq1
  · unfold process_json
    simp only [h1, hp1, h, hp]
    rw [if_neg hq1, if_pos hq]

/-! ## Claim C1 -/

/-- C1: the `add_game_results` merge contract.  Merging the empty sequence is
a no-op on the whole store; a non-empty batch is processed result by result
(the fold of `addStep`); one step inserts `games = 1, wins = winVal won` when
the canonical species is absent and bumps `games` by 1 and `wins` by
`winVal won` when it is present. -/
theorem claim1_merge_contract (st : Stats) (m : List (String × PokemonStats)) (r : GameResult)
    (results : List GameResult) :
    st.add_game_results [] = st ∧
    (st.add_game_results results).pokemon = results.foldl addStep st.pokemon ∧
    (lookupStats m r.species = none →
      lookupStats (addStep m r) r.species = some ⟨1, winVal r.won⟩) ∧
    (∀ s : PokemonStats, lookupStats m r.species = some s →
      lookupStats (addStep m r) r.species = some ⟨s.games + 1, s.wins + winVal r.won⟩) ∧
    (∀ sp : String, sp ≠ r.species → lookupStats (addStep m r) sp = lookupStats m sp) := by
  refine ⟨rfl, add_game_results_pokemon st results, ?_, ?_, ?_⟩
  · intro h
    unfold addStep
    rw [lookupStats_addResult, if_pos rfl, h]
  · intro s h
    unfold addStep
    rw [lookupStats_addResult, if_pos rfl, h]
  · intro sp hsp
    unfold addStep
    rw [lookupStats_addResult, if_neg hsp]

/-- C1 witness: the contract applied to concrete stores: an empty merge on the
empty store, an insertion, and an increment. -/
theorem claim1_merge_contract_witness :
    Stats.new.add_game_results [] = Stats.new ∧
    lookupStats (addStep [] ⟨"\"Pikachu\"", true⟩) "\"Pikachu\"" = some ⟨1, 1⟩ ∧
    lookupStats (addStep [("\"Pikachu\"", ⟨1, 1⟩)] ⟨"\"Pikachu\"", false⟩) "\"Pikachu\"" =
      some ⟨2, 1⟩ := by
  refine ⟨(claim1_merge_contract Stats.new [] ⟨"\"Pikachu\"", true⟩ []).1, ?_, ?_⟩
  · exact (claim1_merge_contract Stats.new [] ⟨"\"Pikachu\"", true⟩ []).2.2.1 rfl
  · have h := (claim1_merge_contract Stats.new [("\"Pikachu\"", ⟨1, 1⟩)]
      ⟨"\"Pikachu\"", false⟩ []).2.2.2.1 ⟨1, 1⟩ (by decide)
    simpa using h

/-! ## Claim C2 -/

/-- Concrete collaborators for the C2 counterexample.  Rust's
`"-1".parse::<f64>()` is `Ok(-1.0)`; the species parser answers exactly the
one entry text occurring in the record, with species bytes `"A"` (quotes
included), as pikkr would. -/
def c2ParseSp : String → Except Unit (Option String) :=
  fun s => if s = "\x7b\"species\":\"A\"\x7d" then Except.ok (some "\"A\"") else Except.error ()

def c2ParseRat : String → Option Rat := fun s => if s = "-1" then some (-1) else none

/-- A record whose two ratings both parse to `-1.0` and whose first team blob
holds one entry. -/
def c2Json : BattleJson :=
  ⟨some "-1", some "[\x7b\"species\":\"A\"\x7d]", some "annika", some "-1", none, some "boB",
    some "annika"⟩

/-- C2 counterexample: with `minRating = 0` both ratings parse to `-1`, which
is below `minRating`, yet extraction is non-empty: the `f64 as u64` cast
clamps `-1.0` to `0`, and `0 < 0` fails, so the record passes the filter. -/
theorem claim2_counterexample :
    c2Json.p1elo = some "-1" ∧ c2ParseRat "-1" = some (-1) ∧ ((-1 : Rat) < 0) ∧
    process_json c2ParseSp c2ParseRat 0 c2Json =
      ProcessResult.ok [⟨"\"A\"", true⟩] := by
  refine ⟨rfl, by decide, by decide, ?_⟩
  decide

/-- C2 (amended): a record is discarded — `process_json` returns `Ok(vec![])`
— whenever either rating is missing, fails to parse, or has a value whose
saturating `f64 as u64` cast (negatives clamp to 0, truncation toward zero)
is below `minRating`.  (The unamended claim, with the comparison on the
parsed value itself, fails for negative ratings at `minRating = 0`, see the
counterexample.) -/
theorem claim2_rating_filter_amended (pS : String → Except Unit (Option String))
    (pR : String → Option Rat) (min_elo : Nat) (j : BattleJson)
    (h : j.p1elo = none ∨ j.p2elo = none ∨
      (∃ r, j.p1elo = some r ∧ pR r = none) ∨
      (∃ r, j.p2elo = some r ∧ pR r = none) ∨
      (∃ r q, j.p1elo = some r ∧ pR r = some q ∧ ratToU64 q < min_elo) ∨
      (∃ r q, j.p2elo = some r ∧ pR r = some q ∧ ratToU64 q < min_elo)) :
    process_json pS pR min_elo j = ProcessResult.ok [] := by
  rcases h with h | h | ⟨r, hr, hp⟩ | ⟨r, hr, hp⟩ | ⟨r, q, hr, hp, hlt⟩ | ⟨r, q, hr, hp, hlt⟩
  · exact process_json_p1elo_none h
  · exact process_json_p2elo_none h
  · exact process_json_p1elo_unparsable hr hp
  · exact process_json_p2elo_unparsable hr hp
  · exact process_json_p1elo_low hr hp hlt
  · exact process_json_p2elo_low hr hp hlt

/-- C2 witness: the amended filter applied to a concrete record with a rating
below the threshold after the cast. -/
theorem claim2_rating_filter_amended_witness :
    process_json c2ParseSp c2ParseRat 5 c2Json = ProcessResult.ok [] :=
  claim2_rating_filter_amended c2ParseSp c2ParseRat 5 c2Json
    (Or.inr (Or.inr (Or.inr (Or.inr (Or.inl ⟨"-1", -1, rfl, by decide, by decide⟩)))))

/-! ## Claim C3 -/

/-- C3: every species entry of every reachable store (any finite sequence of
merges on the empty store) satisfies `wins ≤ games`. -/
theorem claim3_wins_le_games (st : Stats) (h : Reachable st) :
    ∀ e ∈ st.pokemon, e.2.wins ≤ e.2.games :=
  reachable_wins_le_games h

/-- C3 witness: the invariant on a concrete reachable store. -/
theorem claim3_wins_le_games_witness :
    Reachable (mergeAll [[⟨"\"A\"", true⟩], [⟨"\"A\"", false⟩, ⟨"\"B\"", false⟩]]) ∧
    ∀ e ∈ (mergeAll [[⟨"\"A\"", true⟩], [⟨"\"A\"", false⟩, ⟨"\"B\"", false⟩]]).pokemon,
      e.2.wins ≤ e.2.games :=
  ⟨⟨_, rfl⟩, claim3_wins_le_games _ ⟨_, rfl⟩⟩

/-! ## Claim C4 -/

/-- First singleton batch for the C4 counterexample. -/
def c4BatchA : List GameResult := [⟨"\"A\"", true⟩]

/-- Second singleton batch for the C4 counterexample. -/
def c4BatchB : List GameResult := [⟨"\"B\"", true⟩]

/-- C4 counterexample: merging the two singleton batches in the two possible
orders partitions the same multiset of GameResults, but the final stores are
not equal: the entry insertion order differs (`IndexMap` order is part of
`AggregateStats` and is the ranking tie-break), so merge order is observable.
-/
theorem claim4_counterexample :
    List.Perm ([c4BatchA, c4BatchB].flatten) ([c4BatchB, c4BatchA].flatten) ∧
    mergeAll [c4BatchA, c4BatchB] ≠ mergeAll [c4BatchB, c4BatchA] := by
  constructor
  · decide
  · decide

/-- C4 (amended): merge order-independence holds for the counter content of
the store: for any two batch sequences carrying the same multiset of
GameResults, the two final stores give every species identical counters
(lookup agrees everywhere); only the entry order can differ. -/
theorem claim4_merge_order_amended (bs1 bs2 : List (List GameResult))
    (h : List.Perm bs1.flatten bs2.flatten) (sp : String) :
    lookupStats (mergeAll bs1).pokemon sp = lookupStats (mergeAll bs2).pokemon sp := by
  rw [lookupStats_mergeAll, lookupStats_mergeAll]
  have hg : countGames sp bs1.flatten = countGames sp bs2.flatten := by
    unfold countGames
    exact h.countP_eq _
  have hw : countWins sp bs1.flatten = countWins sp bs2.flatten := by
    unfold countWins
    exact h.countP_eq _
  rw [hg, hw]

/-- C4 witness: the amended order-independence on two concrete partitions of
the same two results. -/
theorem claim4_merge_order_amended_witness :
    List.Perm ([c4BatchA, c4BatchB].flatten) ([[⟨"\"B\"", true⟩, ⟨"\"A\"", true⟩]].flatten) ∧
    lookupStats (mergeAll [c4BatchA, c4BatchB]).pokemon "\"A\"" =
      lookupStats (mergeAll [[⟨"\"B\"", true⟩, ⟨"\"A\"", true⟩]]).pokemon "\"A\"" :=
  ⟨by decide, claim4_merge_order_amended _ _ (by decide) _⟩

/-! ## Claim C6 -/

/-- C6: species normalization is idempotent on every input, and an input
matching no rule of the table is returned unchanged. -/
theorem claim6_normalize_idempotent (s : String) :
    normalize_species (normalize_species s) = normalize_species s ∧
    (matchesRule s = false → normalize_species s = s) := by
  constructor
  · rcases normalize_species_master s with ⟨_, h⟩ | ⟨_, h⟩
    · rw [h]
      exact h
    · exact normalize_species_fix _ h
  · intro hm
    rcases normalize_species_master s with ⟨_, h⟩ | ⟨ht, _⟩
    · exact h
    · rw [hm] at ht
      exact absurd ht (by simp)

/-- C6 witness: idempotence on a rule-matching input and invariance on a
non-matching input. -/
theorem claim6_normalize_idempotent_witness :
    normalize_species (normalize_species "\"Pikachu-Libre\"") =
      normalize_species "\"Pikachu-Libre\"" ∧
    matchesRule "\"Mew\"" = false ∧ normalize_species "\"Mew\"" = "\"Mew\"" :=
  ⟨(claim6_normalize_idempotent "\"Pikachu-Libre\"").1, by decide,
    (claim6_normalize_idempotent "\"Mew\"").2 (by decide)⟩

/-! ## Claim C8 -/

/-- Concrete collaborators for the C8 counterexample (distinct from C2's):
`"-2".parse::<f64>()` is `Ok(-2.0)`. -/
def c8ParseSp : String → Except Unit (Option String) :=
  fun s => if s = "\x7b\"species\":\"B\"\x7d" then Except.ok (some "\"B\"") else Except.error ()

def c8ParseRat : String → Option Rat := fun s => if s = "-2" then some (-2) else none

def c8Json : BattleJson :=
  ⟨some "-2", some "[\x7b\"species\":\"B\"\x7d]", some "p one", some "-2", none, some "p two",
    some "p two"⟩

/-- C8 counterexample: at `minRating = 0` a record whose ratings parse to the
negative number `-2.0` is not discarded: the saturating cast clamps to 0 and
`0 < 0` fails, so extraction is non-empty. -/
theorem claim8_counterexample :
    c8Json.p1elo = some "-2" ∧ c8ParseRat "-2" = some (-2) ∧ ((-2 : Rat) < 0) ∧
    process_json c8ParseSp c8ParseRat 0 c8Json =
      ProcessResult.ok [⟨"\"B\"", false⟩] := by
  refine ⟨rfl, by decide, by decide, ?_⟩
  decide

/-- C8 (amended): a rating that parses to a negative number is clamped to `0`
by the `f64 as u64` cast, so such a record is discarded exactly when
`minRating ≥ 1`; for `minRating = 0` it passes the filter (counterexample
above). -/
theorem claim8_negative_rating_amended (pS : String → Except Unit (Option String))
    (pR : String → Option Rat) (min_elo : Nat) (j : BattleJson) (r : String) (q : Rat)
    (hq : q < 0) (hmin : 1 ≤ min_elo)
    (h : (j.p1elo = some r ∧ pR r = some q) ∨ (j.p2elo = some r ∧ pR r = some q)) :
    process_json pS pR min_elo j = ProcessResult.ok [] := by
  have hcast : ratToU64 q = 0 := by
    unfold ratToU64
    rw [if_pos hq]
  rcases h with ⟨hr, hp⟩ | ⟨hr, hp⟩
  · exact process_json_p1elo_low hr hp (by omega)
  · exact process_json_p2elo_low hr hp (by omega)

/-- C8 witness: the amended statement on a concrete record with a negative
rating and `minRating = 1`. -/
theorem claim8_negative_rating_amended_witness :
    process_json c8ParseSp c8ParseRat 1 c8Json = ProcessResult.ok [] :=
  claim8_negative_rating_amended c8ParseSp c8ParseRat 1 c8Json "-2" (-2)
    (by decide) (by omega) (Or.inl ⟨rfl, by decide⟩)

/-! ## Claim C5 -/

/-- C5: `sort` (and hence the rendered ranking) is descending by the
deviations score; the sort is stable, so entries with equal deviations keep
their relative (insertion) order; and the rendered rank column is the
1-based consecutive sequence with no gaps or shared ranks. -/
theorem claim5_ranking (st : Stats) (h : st.is_sorted = false) :
    List.Pairwise (fun a b => final_deviations b.2 ≤ final_deviations a.2)
      (Stats.sort st).pokemon ∧
    (∀ x y : String × PokemonStats, List.Sublist [x, y] st.pokemon →
      final_deviations x.2 = final_deviations y.2 →
      List.Sublist [x, y] (Stats.sort st).pokemon) ∧
    (Stats.to_human_readable_rows st).map HumanRow.rank =
      List.range' 1 (Stats.sort st).pokemon.length := by
  have hsort : (Stats.sort st).pokemon = st.pokemon.mergeSort sortLe := by
    unfold Stats.sort
    rw [if_neg (by simp [h])]
  refine ⟨?_, ?_, ?_⟩
  · rw [hsort]
    have hp := List.sorted_mergeSort sortLe_trans sortLe_total st.pokemon
    exact hp.imp (fun hab => (sortLe_iff_real _ _).mp hab)
  · intro x y hxy heq
    rw [hsort]
    refine List.pair_sublist_mergeSort sortLe_trans sortLe_total ?_ hxy
    exact (sortLe_iff_real x y).mpr (le_of_eq heq.symm)
  · unfold Stats.to_human_readable_rows
    exact humanRowsAux_ranks 1 (Stats.sort st).pokemon

/-- Concrete store for the C5 witness: two species with identical counters,
hence exactly equal deviations. -/
def c5Store : Stats := ⟨[("\"A\"", ⟨1, 1⟩), ("\"B\"", ⟨1, 1⟩)], false⟩

/-- C5 witness: the ranking properties on a concrete two-entry store with
tied deviations. -/
theorem claim5_ranking_witness :
    List.Pairwise (fun a b => final_deviations b.2 ≤ final_deviations a.2)
      (Stats.sort c5Store).pokemon ∧
    (∀ x y : String × PokemonStats, List.Sublist [x, y] c5Store.pokemon →
      final_deviations x.2 = final_deviations y.2 →
      List.Sublist [x, y] (Stats.sort c5Store).pokemon) ∧
    (Stats.to_human_readable_rows c5Store).map HumanRow.rank =
      List.range' 1 (Stats.sort c5Store).pokemon.length :=
  claim5_ranking c5Store rfl

/-! ## Claim C7 -/

/-- An undecodable entry anywhere in a team's entry list makes the entry scan
return the error outcome (the `?` propagation), never a partial result. -/
lemma entriesResults_error {pS : String → Except Unit (Option String)} {won : Bool} :
    ∀ {es : List (List Char)},
      (∃ e ∈ es, pS (String.mk ('\x7b' :: (e ++ ['\x7d']))) = Except.error ()) →
      entriesResults pS won es = TeamOutcome.error
  | e :: tl, h => by
    rcases h with ⟨e', he', herr⟩
    rcases List.mem_cons.mp he' with he | he
    · subst he
      unfold entriesResults
      rw [herr]
    · have htl := @entriesResults_error pS won tl ⟨e', he, herr⟩
      unfold entriesResults
      rcases hp : pS (String.mk ('\x7b' :: (e ++ ['\x7d']))) with u | os
      · simp only [hp]
      · rcases os with _ | sp
        · simp only [hp]
          exact htl
        · simp only [hp, htl]

/-- C7: for a record that passes the rating filter, a present team blob in
which an entry cannot be decoded yields the `Err` return of `process_json`
(propagated to the caller via `?`), not a silent skip or a partial result:
the first conjunct localises the error to the entry scan behind the blob
delimiters, the remaining conjuncts push it through `process_json` whichever
side the malformed team sits on.  (A blob that fails the `[\x7b`…`\x7d]`
delimiter strip altogether aborts by panic instead — modelled as
`ProcessResult.panic` — which is outside this claim's "entry cannot be
decoded" condition.) -/
theorem claim7_malformed_entry (pS : String → Except Unit (Option String))
    (pR : String → Option Rat) (min_elo : Nat) (j : BattleJson) (r1 r2 : String) (q1 q2 : Rat)
    (h1 : j.p1elo = some r1) (hp1 : pR r1 = some q1) (hq1 : ¬ ratToU64 q1 < min_elo)
    (h2 : j.p2elo = some r2) (hp2 : pR r2 = some q2) (hq2 : ¬ ratToU64 q2 < min_elo) :
    (∀ (won : Bool) (t t1 t2 : String), stripPre "[\x7b" t = some t1 →
      stripSuf "\x7d]" t1 = some t2 →
      (∃ e ∈ splitTeamSep t2.data,
        pS (String.mk ('\x7b' :: (e ++ ['\x7d']))) = Except.error ()) →
      processTeam pS won t = ProcessResult.error) ∧
    (∀ t : String, j.p1team = some t →
      processTeam pS (decide (j.winner = j.p1name)) t = ProcessResult.error →
      process_json pS pR min_elo j = ProcessResult.error) ∧
    (∀ t2 : String, j.p1team = none → j.p2team = some t2 →
      processTeam pS (decide (j.winner = j.p2name)) t2 = ProcessResult.error →
      process_json pS pR min_elo j = ProcessResult.error) ∧
    (∀ (t t2 : String) (rs1 : List GameResult), j.p1team = some t →
      processTeam pS (decide (j.winner = j.p1name)) t = ProcessResult.ok rs1 →
      j.p2team = some t2 →
      processTeam pS (decide (j.winner = j.p2name)) t2 = ProcessResult.error →
      process_json pS pR min_elo j = ProcessResult.error) := by
  refine ⟨?_, ?_, ?_, ?_⟩
  · intro won t t1 t2 hs1 hs2 hex
    unfold processTeam
    simp only [hs1, hs2, entriesResults_error hex]
  · intro t ht herr
    unfold process_json
    simp only [h1, hp1, h2, hp2, ht, herr]
    rw [if_neg hq1, if_neg hq2]
  · intro t2 ht1 ht2 herr
    unfold process_json
    simp only [h1, hp1, h2, hp2, ht1, ht2, herr]
    rw [if_neg hq1, if_neg hq2]
  · intro t t2 rs1 ht hok ht2 herr
    unfold process_json
    simp only [h1, hp1, h2, hp2, ht, hok, ht2, herr]
    rw [if_neg hq1, if_neg hq2]

/-- Collaborators and record for the C7 witness: the species parser decodes
the malformed entry `\x7bgarbage\x7d` to an error (as pikkr would), both
ratings parse to `5.0`, the threshold is `0`. -/
def c7ParseSp : String → Except Unit (Option String) :=
  fun s => if s = "\x7bgarbage\x7d" then Except.error () else Except.ok none

def c7ParseRat : String → Option Rat := fun _ => some 5

def c7Json : BattleJson :=
  ⟨some "5", some "[\x7bgarbage\x7d]", some "alice", some "5", none, some "carol", some "alice"⟩

/-- C7 witness: the concrete record passes the rating filter, its present
team blob's single entry fails to decode, and extraction returns the error
result. -/
theorem claim7_malformed_entry_witness :
    process_json c7ParseSp c7ParseRat 0 c7Json = ProcessResult.error :=
  (claim7_malformed_entry c7ParseSp c7ParseRat 0 c7Json "5" "5" 5 5 rfl rfl (by omega)
    rfl rfl (by omega)).2.1 "[\x7bgarbage\x7d]" rfl (by decide)

/-! ## Claim C10 -/

/-- C10: on every reachable store every entry has `games ≥ 1` (so its `f32`
deviations value is never NaN), and the `partial_cmp` of the sort comparator
is `Some` on every pair of entries — the `.unwrap()` in `Stats::sort` cannot
panic. -/
theorem claim10_comparator_total (st : Stats) (h : Reachable st) :
    (∀ e ∈ st.pokemon, 1 ≤ e.2.games) ∧
    (∀ a b : String × PokemonStats, a ∈ st.pokemon → b ∈ st.pokemon →
      cmpDevChecked b.2 a.2 = some (cmpDev b.2 a.2)) := by
  refine ⟨reachable_games_pos h, ?_⟩
  intro a b ha hb
  have hga := reachable_games_pos h a ha
  have hgb := reachable_games_pos h b hb
  unfold cmpDevChecked
  rw [if_neg (by omega : ¬ (b.2.games = 0 ∨ a.2.games = 0))]

/-- C10 witness: the comparator is defined on every entry pair of a concrete
reachable store. -/
theorem claim10_comparator_total_witness :
    Reachable (mergeAll [[⟨"\"A\"", true⟩, ⟨"\"B\"", false⟩]]) ∧
    (∀ e ∈ (mergeAll [[⟨"\"A\"", true⟩, ⟨"\"B\"", false⟩]]).pokemon, 1 ≤ e.2.games) ∧
    (∀ a b : String × PokemonStats,
      a ∈ (mergeAll [[⟨"\"A\"", true⟩, ⟨"\"B\"", false⟩]]).pokemon →
      b ∈ (mergeAll [[⟨"\"A\"", true⟩, ⟨"\"B\"", false⟩]]).pokemon →
      cmpDevChecked b.2 a.2 = some (cmpDev b.2 a.2)) :=
  ⟨⟨_, rfl⟩, (claim10_comparator_total _ ⟨_, rfl⟩).1, (claim10_comparator_total _ ⟨_, rfl⟩).2⟩

/-! ## Claim C9 -/

lemma natChars_digits (n : Nat) : ∀ ch ∈ natChars n, 48 ≤ ch.toNat ∧ ch.toNat ≤ 57 := by
  induction n using Nat.strong_induction_on with
  | _ n ih =>
    intro ch hch
    unfold natChars at hch
    split at hch
    · next hlt =>
      rcases List.mem_singleton.mp hch with rfl
      interval_cases n <;> exact ⟨by decide, by decide⟩
    · next hge =>
      rcases List.mem_append.mp hch with h | h
      · exact ih (n / 10) (Nat.div_lt_self (by omega) (by omega)) ch h
      · rcases List.mem_singleton.mp h with rfl
        have hm : n % 10 < 10 := Nat.mod_lt _ (by omega)
        set d := n % 10 with hd
        interval_cases d <;> exact ⟨by decide, by decide⟩

lemma goodChar_natChars {n : Nat} {ch : Char} (h : ch ∈ natChars n) :
    ch ≠ ',' ∧ ch ≠ '\n' := by
  obtain ⟨h1, h2⟩ := natChars_digits n ch h
  constructor
  · intro he
    subst he
    exact absurd h1 (by decide)
  · intro he
    subst he
    exact absurd h1 (by decide)

lemma goodChar_intChars {i : Int} {ch : Char} (h : ch ∈ intChars i) :
    ch ≠ ',' ∧ ch ≠ '\n' := by
  unfold intChars at h
  split at h
  · rcases List.mem_cons.mp h with rfl | h
    · exact ⟨by decide, by decide⟩
    · exact goodChar_natChars h
  · exact goodChar_natChars h

lemma goodChar_winrateChars {s : PokemonStats} {ch : Char} (h : ch ∈ winrateChars s) :
    ch ≠ ',' ∧ ch ≠ '\n' := by
  unfold winrateChars at h
  rcases List.mem_append.mp h with h | h
  · exact goodChar_natChars h
  · rcases List.mem_cons.mp h with rfl | h
    · exact ⟨by decide, by decide⟩
    · exact goodChar_natChars h

lemma goodChar_deviationsChars {s : PokemonStats} {ch : Char} (h : ch ∈ deviationsChars s) :
    ch ≠ ',' ∧ ch ≠ '\n' := by
  unfold deviationsChars at h
  rcases List.mem_append.mp h with h | h
  · exact goodChar_intChars h
  · rcases List.mem_cons.mp h with rfl | h
    · exact ⟨by decide, by decide⟩
    · exact goodChar_intChars h

lemma csvLine_no_newline {e : String × PokemonStats} (hk : '\n' ∉ e.1.data) :
    '\n' ∉ csvLine e := by
  intro h
  rcases mem_intercalate_singleton h with h | ⟨xs, hxs, hch⟩
  · exact absurd h (by decide)
  · simp only [csvFields, List.mem_cons, List.mem_singleton, List.not_mem_nil, or_false] at hxs
    rcases hxs with rfl | rfl | rfl | rfl | rfl
    · exact hk hch
    · exact (goodChar_natChars hch).2 rfl
    · exact (goodChar_natChars hch).2 rfl
    · exact (goodChar_winrateChars hch).2 rfl
    · exact (goodChar_deviationsChars hch).2 rfl

/-- C9: the CSV output of a store round-trips: splitting the rendered string
on newlines yields exactly one line per ranked entry in rank (sorted) order;
splitting each line on commas yields the five fields species, games, wins,
winrate, deviations in that fixed order; and the species field is the stored
key verbatim (which carries its surrounding JSON quotes).  Splitting yields
exactly `n` lines — no extra empty piece — which is the "single newline
separator, no trailing newline" property. -/
theorem claim9_csv (st : Stats) (hne : st.pokemon ≠ [])
    (hkeys : ∀ e ∈ st.pokemon, ',' ∉ e.1.data ∧ '\n' ∉ e.1.data) :
    splitOnChar '\n' (Stats.to_csv st) = ((Stats.sort st).pokemon).map csvLine ∧
    (∀ e ∈ (Stats.sort st).pokemon, splitOnChar ',' (csvLine e) = csvFields e) ∧
    (∀ e ∈ (Stats.sort st).pokemon, (csvFields e).head? = some e.1.data) := by
  have hs : ∀ e ∈ (Stats.sort st).pokemon, ',' ∉ e.1.data ∧ '\n' ∉ e.1.data :=
    fun e he => hkeys e (mem_sort_pokemon.mp he)
  refine ⟨?_, ?_, ?_⟩
  · unfold Stats.to_csv
    apply splitOnChar_intercalate
    · have hsn : (Stats.sort st).pokemon ≠ [] := by
        intro hnil
        apply hne
        have hlen := (sort_pokemon_perm st).length_eq
        rw [hnil] at hlen
        exact List.length_eq_zero.mp hlen.symm
      simpa using hsn
    · intro xs hxs
      rcases List.mem_map.mp hxs with ⟨e, he, rfl⟩
      exact csvLine_no_newline (hs e he).2
  · intro e he
    unfold csvLine
    apply splitOnChar_intercalate
    · simp [csvFields]
    · intro xs hxs
      simp only [csvFields, List.mem_cons, List.mem_singleton, List.not_mem_nil,
        or_false] at hxs
      rcases hxs with rfl | rfl | rfl | rfl | rfl
      · exact (hs e he).1
      · exact fun hch => (goodChar_natChars hch).1 rfl
      · exact fun hch => (goodChar_natChars hch).1 rfl
      · exact fun hch => (goodChar_winrateChars hch).1 rfl
      · exact fun hch => (goodChar_deviationsChars hch).1 rfl
  · intro e _
    rfl

/-- Concrete store for the C9 witness. -/
def c9Store : Stats := ⟨[("\"B\"", ⟨2, 0⟩), ("\"A\"", ⟨1, 1⟩)], false⟩

/-- C9 witness: the CSV round trip on a concrete two-entry store. -/
theorem claim9_csv_witness :
    splitOnChar '\n' (Stats.to_csv c9Store) = ((Stats.sort c9Store).pokemon).map csvLine ∧
    (∀ e ∈ (Stats.sort c9Store).pokemon, splitOnChar ',' (csvLine e) = csvFields e) ∧
    (∀ e ∈ (Stats.sort c9Store).pokemon, (csvFields e).head? = some e.1.data) :=
  claim9_csv c9Store (by decide) (by decide)

end RandbatsWinrates
